import Mathlib

/-!
# Verification of the Kramers-Moyal kernel estimator (`kramersmoyal/kmc.py`)

A shallow embedding of `kmc_kernel_estimator` and its helper
`cartesian_product`, together with a model of the repository's
`binning.histogramdd` (the `kramersmoyal.binning` module is not part of the
sources at hand, so that one function is modelled from the specification).

Arrays are embedded as a shape (list of dimension sizes) together with the
row-major flat list of entries, mirroring numpy's memory layout.  Real
numbers are embedded as rationals: every operation the pipeline performs on
array entries (differences, integer powers, products, division) is exact
field arithmetic, so the structural claims under study are unaffected by
the change of scalar field.
-/

deriving instance DecidableEq for Except

namespace KMC

/-- A numpy-style n-dimensional array: a shape together with the row-major
flat list of entries.  `data.length = shape.prod` for well-formed arrays. -/
structure NDArray (α : Type) where
  shape : List ℕ
  data : List α
  deriving DecidableEq, Repr

/-- Well-formedness: the flat data has exactly as many entries as the shape
prescribes. -/
def NDArray.WF {α : Type} (a : NDArray α) : Prop :=
  a.data.length = a.shape.prod

instance {α : Type} (a : NDArray α) : Decidable a.WF := by
  unfold NDArray.WF; infer_instance

/-- Flat read of an array (0 past the end, as all reads in the pipeline are
in bounds for well-formed arrays). -/
def NDArray.get {α : Type} [Zero α] (a : NDArray α) (i : ℕ) : α :=
  a.data.getD i 0

/-- Row-major multi-index of the flat index `f` in an array of shape `sh`. -/
def unflatten : List ℕ → ℕ → List ℕ
  | [], _ => []
  | _ :: ns, f => f / ns.prod :: unflatten ns (f % ns.prod)

/-- Row-major flat index of the multi-index `idx` in an array of shape `sh`. -/
def flattenIdx : List ℕ → List ℕ → ℕ
  | _ :: ns, i :: is => i * ns.prod + flattenIdx ns is
  | _, _ => 0

/-- Entry of an array at a multi-index. -/
def NDArray.entry {α : Type} [Zero α] (a : NDArray α) (idx : List ℕ) : α :=
  a.get (flattenIdx a.shape idx)

/-- Build an array of shape `sh` from an entry function on multi-indices. -/
def NDArray.ofFn {α : Type} (sh : List ℕ) (f : List ℕ → α) : NDArray α :=
  ⟨sh, (List.range sh.prod).map (fun i => f (unflatten sh i))⟩

/-- numpy broadcasting of one pair of dimension sizes. -/
def bcastDim (n m : ℕ) : Option ℕ :=
  if n = m then some n else if n = 1 then some m else if m = 1 then some n else none

/-- All the pairwise broadcasts of a list of dimension pairs, `none` as
soon as one pair is incompatible. -/
def zipBcast : List (ℕ × ℕ) → Option (List ℕ)
  | [] => some []
  | p :: ps =>
    match bcastDim p.1 p.2, zipBcast ps with
    | some n, some ns => some (n :: ns)
    | _, _ => none

/-- numpy broadcasting of two shapes: align from the trailing axis (pad the
shorter shape with 1s on the left); paired sizes must agree or be 1. -/
def broadcastShapes (s t : List ℕ) : Option (List ℕ) :=
  let l := max s.length t.length
  zipBcast ((List.replicate (l - s.length) 1 ++ s).zip
    (List.replicate (l - t.length) 1 ++ t))

/-- The source index a broadcast result index reads from: keep the trailing
`s.length` coordinates and zero the coordinate on every size-1 axis. -/
def projIdx (s : List ℕ) (idx : List ℕ) : List ℕ :=
  ((idx.drop (idx.length - s.length)).zip s).map (fun p => if p.2 = 1 then 0 else p.1)

/-- Pointwise application of `f` to two arrays under numpy broadcasting
(`none` when the shapes are incompatible, as numpy raises). -/
def broadcast2 {α β γ : Type} [Zero α] [Zero β] (f : α → β → γ)
    (a : NDArray α) (b : NDArray β) : Option (NDArray γ) :=
  (broadcastShapes a.shape b.shape).map (fun sh =>
    NDArray.ofFn sh (fun idx =>
      f (a.get (flattenIdx a.shape (projIdx a.shape idx)))
        (b.get (flattenIdx b.shape (projIdx b.shape idx)))))

/-- Model of `np.prod(a, axis=k)`: drop axis `k`, multiplying the entries along it. -/
def prodAxis (k : ℕ) (a : NDArray ℚ) : NDArray ℚ :=
  NDArray.ofFn (a.shape.take k ++ a.shape.drop (k + 1)) (fun idx =>
    ((List.range (a.shape.getD k 1)).map (fun j =>
      a.entry (idx.take k ++ j :: idx.drop k))).prod)

/-- Model of `np.diff(a, axis=0)`: forward differences along the leading axis. -/
def diffAxis0 (a : NDArray ℚ) : NDArray ℚ :=
  ⟨(a.shape.headD 0 - 1) :: a.shape.tail,
    (List.range ((a.shape.headD 0 - 1) * a.shape.tail.prod)).map
      (fun f => a.get (f + a.shape.tail.prod) - a.get f)⟩

/-- Model of `a[..., None]`: a trailing axis of size 1; the data is unchanged. -/
def expandLast {α : Type} (a : NDArray α) : NDArray α :=
  ⟨a.shape ++ [1], a.data⟩

/-- Model of `a[1:, ...]`: drop the leading row. -/
def dropRow0 (a : NDArray ℚ) : NDArray ℚ :=
  ⟨(a.shape.headD 0 - 1) :: a.shape.tail, a.data.drop a.shape.tail.prod⟩

/-- Model of `a.reshape(sh)`: same data, new shape; `none` when the sizes disagree
(as numpy raises). -/
def reshape (a : NDArray ℚ) (sh : List ℕ) : Option (NDArray ℚ) :=
  if a.data.length = sh.prod then some ⟨sh, a.data⟩ else none

/-- One entry of the full linear convolution of `a` and `b`: the sum of
`a[j] * b[idx - j]` over the multi-indices `j` of `a` with `j ≤ idx`
componentwise and `idx - j` inside `b`; outside its domain `b` counts as
zero (standard zero-padded linear convolution). -/
def convFullEntry (a b : NDArray ℚ) (idx : List ℕ) : ℚ :=
  ((List.range a.shape.prod).map (fun jf =>
    let j := unflatten a.shape jf
    if ((j.zip idx).all (fun p => p.1 ≤ p.2) &&
        (((idx.zip j).map (fun p => p.1 - p.2)).zip b.shape).all (fun p => p.1 < p.2))
    then a.get jf * b.entry ((idx.zip j).map (fun p => p.1 - p.2))
    else 0)).sum

/-- Model of `scipy.signal.convolve(a, b, mode='same')`: the centered part of the
full convolution, with the shape of the first argument; the centering
offset on each axis is `(n2 - 1) / 2` rounded down, as in scipy. -/
def convolveSame (a b : NDArray ℚ) : NDArray ℚ :=
  NDArray.ofFn a.shape (fun idx =>
    convFullEntry a b
      ((idx.zip (b.shape.map (fun n => (n - 1) / 2))).map (fun p => p.1 + p.2)))

/-- Model of `np.stack(l, axis=-1)`: equal-shaped arrays stacked along a new trailing
axis, so the entries of one cell across the arrays become contiguous. -/
def stackLast (l : List (NDArray ℚ)) : NDArray ℚ :=
  ⟨(l.headD ⟨[], []⟩).shape ++ [l.length],
    ((List.range (l.headD ⟨[], []⟩).shape.prod).map
      (fun f => l.map (fun a => a.get f))).flatten⟩

/-- Model of `a[..., p]`: fix the trailing axis at `p`. -/
def sliceLast (a : NDArray ℚ) (p : ℕ) : NDArray ℚ :=
  NDArray.ofFn a.shape.dropLast (fun idx =>
    a.get (flattenIdx a.shape.dropLast idx * a.shape.getD (a.shape.length - 1) 1 + p))

/-- Lines 36-42, the inner `cartesian_product`: the `np.ix_` open meshes of
the input sequences assigned into an array of shape
`(len(a_0), ..., len(a_{la-1}), la)` — its entry at `(i_0, ..., i_{la-1}, j)`
is `arrays[j][i_j]` — then reshaped to `(-1, la)`: one row of `la`
coordinates per point of the Cartesian product, in row-major order. -/
def cartesian_product (arrays : List (List ℚ)) : NDArray ℚ :=
  ⟨[(arrays.map List.length).prod, arrays.length],
    ((List.range (arrays.map List.length).prod).map (fun f =>
      (List.range arrays.length).map (fun j =>
        (arrays.getD j []).getD ((unflatten (arrays.map List.length) f).getD j 0) 0))).flatten⟩

/-- Failure modes of the embedded pipeline; each constructor stands for a
distinct numpy/scipy exception site. -/
inductive KmcErr where
  /-- the two operand shapes of `np.power` do not broadcast -/
  | bcastFail
  /-- bad arguments to the histogram builder (empty data, length or
  sample-count mismatch, a zero bin count) -/
  | histArgs
  /-- the kernel output does not fit the mesh grid shape -/
  | reshapeFail
  /-- the read of `powers.shape[1]` does not exist (rank below 2) -/
  | shapeIndex
  /-- the `np.stack` of an empty list -/
  | stackFail
  /-- the slice `hist[..., p]` with `p` past the trailing axis -/
  | chanFail
  deriving DecidableEq, Repr

/-- The values of column `j` over the `m` samples of an `(m, d)` array. -/
def colVals (samples : NDArray ℚ) (m d j : ℕ) : List ℚ :=
  (List.range m).map (fun i => samples.get (i * d + j))

/-- Minimum of a list of rationals (0 for the empty list, unused). -/
def qmin (l : List ℚ) : ℚ := l.foldl min (l.headD 0)

/-- Maximum of a list of rationals (0 for the empty list, unused). -/
def qmax (l : List ℚ) : ℚ := l.foldl max (l.headD 0)

/-- Lower end of the binned range of dimension `j`: the data minimum, or
the data value less 1/2 when the range is a single point. -/
def histLo (samples : NDArray ℚ) (m d j : ℕ) : ℚ :=
  if qmin (colVals samples m d j) = qmax (colVals samples m d j)
  then qmin (colVals samples m d j) - 1/2 else qmin (colVals samples m d j)

/-- Upper end of the binned range of dimension `j`. -/
def histHi (samples : NDArray ℚ) (m d j : ℕ) : ℚ :=
  if qmin (colVals samples m d j) = qmax (colVals samples m d j)
  then qmax (colVals samples m d j) + 1/2 else qmax (colVals samples m d j)

/-- Width of one bin of dimension `j`. -/
def histW (samples : NDArray ℚ) (bins : List ℕ) (m d j : ℕ) : ℚ :=
  (histHi samples m d j - histLo samples m d j) / (bins.getD j 1 : ℕ)

/-- Bin of sample `i` along dimension `j`: equal-width binning of the data
range, a sample on the upper boundary going into the last bin. -/
def histBinIdx (samples : NDArray ℚ) (bins : List ℕ) (m d i j : ℕ) : ℕ :=
  min (⌊(samples.get (i * d + j) - histLo samples m d j) /
        histW samples bins m d j⌋.toNat)
    (bins.getD j 1 - 1)

/-- The edges of dimension `j`: `bins[j] + 1` equally spaced boundaries of
the binned range. -/
def histEdgesAt (samples : NDArray ℚ) (bins : List ℕ) (m d j : ℕ) : List ℚ :=
  (List.range (bins.getD j 1 + 1)).map
    (fun t => histLo samples m d j + (t : ℕ) * histW samples bins m d j)

/-- The weighted, density-normalized histogram field of shape
`bins ++ [k]`: a cell of channel `t` holds the sum of the channel-`t`
weights of the samples falling in it, scaled by `1 / (m * cell volume)`. -/
def histArr (samples : NDArray ℚ) (bins : List ℕ) (weights : NDArray ℚ)
    (m d k : ℕ) : NDArray ℚ :=
  NDArray.ofFn (bins ++ [k]) (fun idx =>
    ((List.range m).map (fun i =>
      if (List.range d).all (fun j => histBinIdx samples bins m d i j == idx.getD j 0)
      then weights.get (i * k + idx.getD d 0) else 0)).sum
    / ((m : ℕ) * ((List.range d).map (histW samples bins m d)).prod))

/-- Modelled from the spec: the repository's `binning.histogramdd` (module
`kramersmoyal/binning.py`, absent from the sources at hand; only its call
from `kmc_kernel_estimator` is present).  Following §4.1 of the
specification: given samples of shape `(M, D)`, per-dimension bin counts,
and per-sample per-channel weights of shape `(M, K)`, the edges of
dimension `d` are the `bins[d] + 1` equally spaced boundaries of that
dimension's data range (a single-point range is widened by 1/2 on each
side so the edges stay strictly increasing and a two-sample series does
not fail); all channels share the same edges; a sample on the upper
boundary goes into the last bin; a bin of channel `k` holds the sum of the
channel-`k` weights of its samples scaled by `1 / (M * cell volume)`
(`density=True`).  Fails on a dimensionality or sample-count mismatch and
on empty data, where no data range exists. -/
def histogramdd (samples : NDArray ℚ) (bins : List ℕ) (weights : NDArray ℚ) :
    Except KmcErr (NDArray ℚ × List (List ℚ)) :=
  match samples.shape, weights.shape with
  | [m, d], [mw, k] =>
    if m = 0 ∨ mw ≠ m ∨ bins.length ≠ d ∨ 0 ∈ bins then .error .histArgs
    else .ok (histArr samples bins weights m d k,
              (List.range d).map (histEdgesAt samples bins m d))
  | _, _ => .error .histArgs

/-- Line 45: `grads = np.diff(timeseries, axis=0)`. -/
def kmcGrads (ts : NDArray ℚ) : NDArray ℚ := diffAxis0 ts

/-- Line 46:
`weights = np.prod(np.power(grads[..., None], powers), axis=1)`
(`none` when the two operand shapes do not broadcast).  numpy's float
power at an integer exponent is the exact integer power, embedded as
`zpow` on ℚ. -/
def kmcWeights (ts : NDArray ℚ) (powers : NDArray ℤ) : Option (NDArray ℚ) :=
  (broadcast2 (fun (x : ℚ) (p : ℤ) => x ^ p) (expandLast (kmcGrads ts)) powers).map
    (prodAxis 1)

/-- Lines 44-50: the per-sample weights followed by the weighted histogram
of `timeseries[1:, ...]`. -/
def kmcHist (ts : NDArray ℚ) (bins : List ℕ) (powers : NDArray ℤ) :
    Except KmcErr (NDArray ℚ × List (List ℚ)) :=
  match kmcWeights ts powers with
  | none => .error .bcastFail
  | some w => histogramdd (dropRow0 ts) bins w

/-- Lines 53-54: the Cartesian mesh of the edges, the caller's kernel
evaluated on it, and the reshape of its output to the edge grid. -/
def kmcKernelField (kernel : NDArray ℚ → ℚ → NDArray ℚ) (bw : ℚ)
    (edges : List (List ℚ)) : Except KmcErr (NDArray ℚ) :=
  match reshape (kernel (cartesian_product edges) bw) (edges.map List.length) with
  | none => .error .reshapeFail
  | some kf => .ok kf

/-- Line 55: `kernel_ /= np.sum(kernel_)`.  No degeneracy check is made: a
zero total gives a 0/0 division — NaN in floating point, the junk value
`x / 0 = 0` in the rational embedding — and no error. -/
def normalizeField (kf : NDArray ℚ) : NDArray ℚ :=
  ⟨kf.shape, kf.data.map (fun x => x / kf.data.sum)⟩

/-- Lines 44-62, `kmc_kernel_estimator`: per-sample increment-power
weights, the weighted histogram of `timeseries[1:, ...]`, the kernel field
on the edge mesh normalized by its sum, one `mode='same'` convolution of
the kernel field with each histogram channel (`for p in
range(powers.shape[1])`), and the channel results stacked along a new
trailing axis.  The guards mirror the numpy/scipy exception sites in
source order: `powers.shape[1]` is only read after the histogram and the
kernel field are built. -/
def kmc_kernel_estimator (ts : NDArray ℚ) (bins : List ℕ)
    (kernel : NDArray ℚ → ℚ → NDArray ℚ) (bw : ℚ) (powers : NDArray ℤ) :
    Except KmcErr (NDArray ℚ × List (List ℚ)) :=
  match kmcHist ts bins powers with
  | .error e => .error e
  | .ok (hist, edges) =>
    match kmcKernelField kernel bw edges with
    | .error e => .error e
    | .ok kf =>
      match powers.shape with
      | _ :: k :: _ =>
        if k = 0 then .error .stackFail
        else if hist.shape.getD (hist.shape.length - 1) 0 < k then .error .chanFail
        else .ok (stackLast ((List.range k).map (fun p =>
          convolveSame (normalizeField kf) (sliceLast hist p))), edges)
      | _ => .error .shapeIndex

/-- The broadcast entry function of line 46 with the shapes resolved. -/
def gradsPowF (ts : NDArray ℚ) (powers : NDArray ℤ) (m d k : ℕ)
    (idx : List ℕ) : ℚ :=
  (expandLast (kmcGrads ts)).get (flattenIdx [m, d, 1] (projIdx [m, d, 1] idx)) ^
    powers.get (flattenIdx [d, k] (projIdx [d, k] idx))

/-- One channel of the modelled weighted histogram: the same density
histogram with a single scalar weight `wt i` per sample.  With `wt = 1`
this is the plain unweighted density histogram of the samples. -/
def histChan (samples : NDArray ℚ) (bins : List ℕ) (wt : ℕ → ℚ) (m d : ℕ) :
    NDArray ℚ :=
  NDArray.ofFn bins (fun idx =>
    ((List.range m).map (fun i =>
      if (List.range d).all (fun j => histBinIdx samples bins m d i j == idx.getD j 0)
      then wt i else 0)).sum
    / ((m : ℕ) * ((List.range d).map (histW samples bins m d)).prod))

/-- The §4.3 contract of the caller-supplied kernel: one scalar per mesh
row. -/
def KernelWF (kernel : NDArray ℚ → ℚ → NDArray ℚ) : Prop :=
  ∀ mesh bw, (kernel mesh bw).data.length = mesh.shape.getD 0 0

/-- Row `i` of a rank-2 array: the `i`-th group of `shape[1]` consecutive
data entries. -/
def NDArray.row (a : NDArray ℚ) (i : ℕ) : List ℚ :=
  (a.data.drop (i * a.shape.getD 1 1)).take (a.shape.getD 1 1)

/-- The histogram stage as the specification's words for C2 describe it:
binning the increment rows themselves (`np.diff`) instead of
`timeseries[1:, ...]`.  Written only to be compared against `kmcHist`. -/
def kmcHistSpecC2 (ts : NDArray ℚ) (bins : List ℕ) (powers : NDArray ℤ) :
    Except KmcErr (NDArray ℚ × List (List ℚ)) :=
  match kmcWeights ts powers with
  | none => .error .bcastFail
  | some w => histogramdd (kmcGrads ts) bins w

/-- A 3-sample 1-D test series. -/
def tsA : NDArray ℚ := ⟨[3, 1], [0, 1, 3]⟩

/-- A 2-sample 1-D test series with increment 2. -/
def tsB : NDArray ℚ := ⟨[2, 1], [0, 2]⟩

/-- A 2-sample 2-D test series with increment `(2, 3)`. -/
def tsC : NDArray ℚ := ⟨[2, 2], [0, 0, 2, 3]⟩

/-- A 1-sample 1-D series: no increment can be formed. -/
def tsD : NDArray ℚ := ⟨[1, 1], [5]⟩

/-- One drift channel: exponent matrix of shape `(1, 1)` holding 1. -/
def powA : NDArray ℤ := ⟨[1, 1], [1]⟩

/-- A `(2, 1)` exponent matrix: the claimed `(K, D)` orientation of the two
channels `[1]` and `[2]` of a 1-D series. -/
def powB : NDArray ℤ := ⟨[2, 1], [1, 2]⟩

/-- A `(2, 2)` exponent matrix whose *row* 0 is all zero: its rows are
`[0, 0]` and `[1, 1]`, its columns `[0, 1]` and `[0, 1]`. -/
def powC : NDArray ℤ := ⟨[2, 2], [0, 0, 1, 1]⟩

/-- A negative exponent, forbidden by the claimed validation. -/
def powNeg : NDArray ℤ := ⟨[1, 1], [-1]⟩

/-- A constant kernel obeying the §4.3 mesh contract. -/
def kerConst : NDArray ℚ → ℚ → NDArray ℚ :=
  fun mesh _ => ⟨[mesh.shape.getD 0 0], List.replicate (mesh.shape.getD 0 0) 1⟩

/-- The all-zero kernel: every field it produces sums to zero. -/
def kerZero : NDArray ℚ → ℚ → NDArray ℚ :=
  fun mesh _ => ⟨[mesh.shape.getD 0 0], List.replicate (mesh.shape.getD 0 0) 0⟩

/-- A memory for the frame claim: the numeric buffers the call can reach.
The rational region holds the float arrays (the `timeseries` argument
lives at index 0); the two integer regions hold `bins` and `powers`, each
at index 0 of its region. -/
structure Store where
  qbufs : List (List ℚ)
  nbufs : List (List ℕ)
  zbufs : List (List ℤ)

/-- Allocate a fresh rational buffer, returning its index. -/
def Store.allocQ (st : Store) (b : List ℚ) : Store × ℕ :=
  (⟨st.qbufs ++ [b], st.nbufs, st.zbufs⟩, st.qbufs.length)

/-- Overwrite the rational buffer at index `i` in place. -/
def Store.writeQ (st : Store) (i : ℕ) (b : List ℚ) : Store :=
  ⟨st.qbufs.set i b, st.nbufs, st.zbufs⟩

/-- Predicate `StorePres s s'`: going from store `s` to `s'` kept the three argument
buffers intact (and did not shrink the rational region). -/
def StorePres (s s' : Store) : Prop :=
  s'.qbufs.getD 0 [] = s.qbufs.getD 0 [] ∧ s'.nbufs = s.nbufs ∧
  s'.zbufs = s.zbufs ∧ s.qbufs.length ≤ s'.qbufs.length

/-- Lines 44-62 with every array buffer held in an explicit store:
`timeseries` is the rational buffer at index 0 (of shape `tsShape`),
`bins` the first integer buffer, `powers` the first exponent buffer (of
shape `powShape`).  Every numpy operation of the pipeline allocates its
result afresh (`np.diff`, `np.power`/`np.prod`, the histogram, the mesh,
the convolutions and `np.stack` all return new arrays), and the caller's
kernel returns a fresh array of scalars (its §4.3 contract); the sole
in-place update in the source — `kernel_ /= np.sum(kernel_)`, line 55 —
is an explicit store write, and its target is the kernel output's buffer,
allocated during the call.  Returns the final store with the result. -/
def kmcTracked (st : Store) (tsShape powShape : List ℕ)
    (kernel : NDArray ℚ → ℚ → NDArray ℚ) (bw : ℚ) :
    Store × Except KmcErr (NDArray ℚ × List (List ℚ)) :=
  let ts : NDArray ℚ := ⟨tsShape, st.qbufs.getD 0 []⟩
  let bins : List ℕ := st.nbufs.getD 0 []
  let powers : NDArray ℤ := ⟨powShape, st.zbufs.getD 0 []⟩
  let s1 := (st.allocQ (kmcGrads ts).data).1
  match kmcWeights ts powers with
  | none => (s1, .error .bcastFail)
  | some w =>
    let s2 := (s1.allocQ w.data).1
    match histogramdd (dropRow0 ts) bins w with
    | .error e => (s2, .error e)
    | .ok (hist, edges) =>
      let s3 := (s2.allocQ hist.data).1
      let s4 := (s3.allocQ (cartesian_product edges).data).1
      let kraw := kernel (cartesian_product edges) bw
      let s5 := (s4.allocQ kraw.data).1
      let kIdx := (s4.allocQ kraw.data).2
      match reshape kraw (edges.map List.length) with
      | none => (s5, .error .reshapeFail)
      | some kf =>
        let s6 := s5.writeQ kIdx (normalizeField kf).data
        let kn : NDArray ℚ := ⟨kf.shape, s6.qbufs.getD kIdx []⟩
        match powShape with
        | _ :: k :: _ =>
          if k = 0 then (s6, .error .stackFail)
          else if hist.shape.getD (hist.shape.length - 1) 0 < k then
            (s6, .error .chanFail)
          else
            let chans := (List.range k).map
              (fun p => convolveSame kn (sliceLast hist p))
            let s7 := chans.foldl (fun s c => (s.allocQ c.data).1) s6
            let s8 := (s7.allocQ (stackLast chans).data).1
            (s8, .ok (stackLast chans, edges))
        | _ => (s6, .error .shapeIndex)

theorem unflatten_length (sh : List ℕ) (f : ℕ) :
    (unflatten sh f).length = sh.length := by
  induction sh generalizing f with
  | nil => rfl
  | cons n ns ih => simp [unflatten, ih]

theorem ofFn_WF {α : Type} (sh : List ℕ) (f : List ℕ → α) :
    (NDArray.ofFn sh f).WF := by
  simp [NDArray.ofFn, NDArray.WF]

theorem ofFn_shape {α : Type} (sh : List ℕ) (f : List ℕ → α) :
    (NDArray.ofFn sh f).shape = sh := rfl

theorem ofFn_get {α : Type} [Zero α] (sh : List ℕ) (f : List ℕ → α) (i : ℕ)
    (h : i < sh.prod) :
    (NDArray.ofFn sh f).get i = f (unflatten sh i) := by
  simp [NDArray.ofFn, NDArray.get, List.getD_eq_getElem?_getD,
    List.getElem?_map, List.getElem?_range h]

theorem flattenIdx_lt {sh idx : List ℕ} (h : List.Forall₂ (· < ·) idx sh) :
    flattenIdx sh idx < sh.prod := by
  induction h with
  | nil => simp [flattenIdx]
  | @cons a b as bs hab _ ih =>
    simp only [flattenIdx, List.prod_cons]
    calc a * bs.prod + flattenIdx bs as < a * bs.prod + bs.prod := by omega
    _ = (a + 1) * bs.prod := by ring
    _ ≤ b * bs.prod := Nat.mul_le_mul_right _ hab

theorem unflatten_flattenIdx {sh idx : List ℕ} (h : List.Forall₂ (· < ·) idx sh) :
    unflatten sh (flattenIdx sh idx) = idx := by
  induction h with
  | nil => rfl
  | @cons a b as bs _ hrest ih =>
    have hr : flattenIdx bs as < bs.prod := flattenIdx_lt hrest
    have hP : 0 < bs.prod := by omega
    simp only [flattenIdx, unflatten, List.cons.injEq]
    refine ⟨?_, ?_⟩
    · rw [Nat.mul_comm, Nat.mul_add_div hP, Nat.div_eq_of_lt hr]
      omega
    · rw [Nat.mul_comm, Nat.mul_add_mod, Nat.mod_eq_of_lt hr, ih]

theorem flattenIdx_unflatten {sh : List ℕ} {f : ℕ} (h : f < sh.prod) :
    flattenIdx sh (unflatten sh f) = f := by
  induction sh generalizing f with
  | nil => simp at h; simp [h, unflatten, flattenIdx]
  | cons n ns ih =>
    have hP : 0 < ns.prod := by
      rcases Nat.eq_zero_or_pos ns.prod with h0 | h0
      · simp [List.prod_cons, h0] at h
      · exact h0
    simp only [unflatten, flattenIdx]
    rw [ih (Nat.mod_lt _ hP), Nat.mul_comm]
    exact Nat.div_add_mod f ns.prod

theorem unflatten_forall₂ {sh : List ℕ} {f : ℕ} (h : f < sh.prod) :
    List.Forall₂ (· < ·) (unflatten sh f) sh := by
  induction sh generalizing f with
  | nil => exact List.Forall₂.nil
  | cons n ns ih =>
    have hP : 0 < ns.prod := by
      rcases Nat.eq_zero_or_pos ns.prod with h0 | h0
      · simp [List.prod_cons, h0] at h
      · exact h0
    refine List.forall₂_cons.mpr ⟨?_, ih (Nat.mod_lt _ hP)⟩
    rw [Nat.div_lt_iff_lt_mul hP]
    simpa [List.prod_cons, Nat.mul_comm] using h

theorem forall₂_lt_append {idx sh : List ℕ} {t k : ℕ}
    (h : List.Forall₂ (· < ·) idx sh) (ht : t < k) :
    List.Forall₂ (· < ·) (idx ++ [t]) (sh ++ [k]) := by
  induction h with
  | nil => exact List.forall₂_cons.mpr ⟨ht, List.Forall₂.nil⟩
  | cons hab _ ih => exact List.forall₂_cons.mpr ⟨hab, ih⟩

theorem flattenIdx_append_last {sh idx : List ℕ} (h : idx.length = sh.length)
    (k t : ℕ) :
    flattenIdx (sh ++ [k]) (idx ++ [t]) = flattenIdx sh idx * k + t := by
  induction sh generalizing idx with
  | nil =>
    rw [List.length_eq_zero.mp h]
    simp [flattenIdx]
  | cons n ns ih =>
    cases idx with
    | nil => simp at h
    | cons i is =>
      show i * ((ns ++ [k]).prod) + flattenIdx (ns ++ [k]) (is ++ [t]) =
        (i * ns.prod + flattenIdx ns is) * k + t
      rw [ih (by simpa using h), List.prod_append, List.prod_cons, List.prod_nil]
      ring

theorem unflatten_append_last {sh : List ℕ} {k f t : ℕ} (hf : f < sh.prod)
    (ht : t < k) :
    unflatten (sh ++ [k]) (f * k + t) = unflatten sh f ++ [t] := by
  have h₂ := unflatten_forall₂ hf
  have hlen : (unflatten sh f).length = sh.length := unflatten_length sh f
  calc unflatten (sh ++ [k]) (f * k + t)
      = unflatten (sh ++ [k]) (flattenIdx (sh ++ [k]) (unflatten sh f ++ [t])) := by
        rw [flattenIdx_append_last hlen, flattenIdx_unflatten hf]
    _ = unflatten sh f ++ [t] := unflatten_flattenIdx (forall₂_lt_append h₂ ht)

theorem flatten_getD {α : Type} (l : List (List α)) (k : ℕ)
    (hk : ∀ r ∈ l, r.length = k) {i t : ℕ} (ht : t < k) (hi : i < l.length)
    (d : α) :
    l.flatten.getD (i * k + t) d = (l.getD i []).getD t d := by
  induction l generalizing i with
  | nil => simp at hi
  | cons r rs ih =>
    have hr : r.length = k := hk r (List.mem_cons_self r rs)
    cases i with
    | zero =>
      rw [List.getD_cons_zero, List.flatten_cons, Nat.zero_mul, Nat.zero_add,
        List.getD_eq_getElem?_getD, List.getElem?_append_left (by omega),
        ← List.getD_eq_getElem?_getD]
    | succ i =>
      have h3 : (i + 1) * k = i * k + k := by ring
      rw [List.getD_cons_succ, List.flatten_cons, List.getD_eq_getElem?_getD,
        List.getElem?_append_right (by omega),
        (by omega : (i + 1) * k + t - r.length = i * k + t),
        ← List.getD_eq_getElem?_getD]
      exact ih (fun x hx => hk x (List.mem_cons_of_mem _ hx)) (by simpa using hi)

theorem ofFn_entry {α : Type} [Zero α] (sh : List ℕ) (F : List ℕ → α)
    {idx : List ℕ} (h : List.Forall₂ (· < ·) idx sh) :
    (NDArray.ofFn sh F).entry idx = F idx := by
  unfold NDArray.entry
  rw [ofFn_shape, ofFn_get sh F _ (flattenIdx_lt h), unflatten_flattenIdx h]

theorem getD_map_range {α : Type} {n i : ℕ} (g : ℕ → α) (d : α) (h : i < n) :
    ((List.range n).map g).getD i d = g i := by
  simp [List.getD_eq_getElem?_getD, List.getElem?_map, List.getElem?_range h]

theorem map_range_getD {α β : Type} (l : List α) (d : α) (g : α → β) :
    (List.range l.length).map (fun j => g (l.getD j d)) = l.map g := by
  apply List.ext_getElem
  · simp
  · intro i h₁ h₂
    simp_all only [List.length_map, List.length_range, List.getElem_map,
      List.getElem_range, List.getD_eq_getElem?_getD]
    rw [List.getElem?_eq_getElem (by simpa using h₂)]
    rfl

theorem headD_map_range {α : Type} {k : ℕ} (g : ℕ → α) (d : α) (h : 0 < k) :
    ((List.range k).map g).headD d = g 0 := by
  cases k with
  | zero => omega
  | succ m => simp [List.range_succ_eq_map]

theorem projIdx_append {s idx2 : List ℕ} (pre : List ℕ)
    (h : List.Forall₂ (· < ·) idx2 s) :
    projIdx s (pre ++ idx2) = idx2 := by
  unfold projIdx
  rw [(by rw [List.length_append, h.length_eq] ; omega :
        (pre ++ idx2).length - s.length = pre.length),
    List.drop_left]
  induction h with
  | nil => rfl
  | @cons a b as bs hab _ ih =>
    simp only [List.zip_cons_cons, List.map_cons, ih, List.cons.injEq, and_true]
    rcases eq_or_ne b 1 with hb | hb
    · simp [hb]; omega
    · simp [hb]

theorem bcastDim_one_right (n : ℕ) : bcastDim n 1 = some n := by
  unfold bcastDim
  split_ifs with h1 h2 <;> simp_all

theorem bcastDim_one_left (k : ℕ) : bcastDim 1 k = some k := by
  unfold bcastDim
  split_ifs with h1 h2 <;> simp_all

theorem bcastDim_same (d : ℕ) : bcastDim d d = some d := by
  simp [bcastDim]

/-- The shapes of line 46 always broadcast: `(N-1, D, 1)` against `(D, K)`
gives `(N-1, D, K)`. -/
theorem broadcastShapes_grads (n d k : ℕ) :
    broadcastShapes [n, d, 1] [d, k] = some [n, d, k] := by
  show zipBcast [(n, 1), (d, d), (1, k)] = some [n, d, k]
  simp only [zipBcast, bcastDim_one_right, bcastDim_one_left, bcastDim_same]

theorem proj_coord {i s : ℕ} (h : i < s) : (if s = 1 then 0 else i) = i := by
  split
  · omega
  · rfl

theorem kmcGrads_shape {n d : ℕ} (ts : NDArray ℚ) (hts : ts.shape = [n, d]) :
    (kmcGrads ts).shape = [n - 1, d] := by
  simp [kmcGrads, diffAxis0, hts]

theorem kmcGrads_entry {n d : ℕ} (ts : NDArray ℚ) (hts : ts.shape = [n, d])
    {i j : ℕ} (hi : i < n - 1) (hj : j < d) :
    (kmcGrads ts).entry [i, j] = ts.entry [i + 1, j] - ts.entry [i, j] := by
  have hflat : flattenIdx [n - 1, d] [i, j] = i * d + j := by
    simp [flattenIdx]
  have hlt : i * d + j < (n - 1) * d := by
    calc i * d + j < i * d + d := by omega
    _ = (i + 1) * d := by ring
    _ ≤ (n - 1) * d := Nat.mul_le_mul_right _ (by omega)
  unfold NDArray.entry
  rw [kmcGrads_shape ts hts, hflat]
  unfold kmcGrads diffAxis0 NDArray.get
  rw [hts]
  simp only [List.headD_cons, List.tail_cons, List.prod_cons, List.prod_nil,
    Nat.mul_one, flattenIdx]
  rw [getD_map_range _ _ hlt]
  rw [(by ring : i * d + j + d = (i + 1) * d + (j + 0))]
  rw [(by ring : i * d + j = i * d + (j + 0))]

theorem kmcWeights_eq (ts : NDArray ℚ) (powers : NDArray ℤ)
    {n d k : ℕ} (hts : ts.shape = [n, d]) (hpow : powers.shape = [d, k]) :
    kmcWeights ts powers =
      some (prodAxis 1 (NDArray.ofFn [n - 1, d, k] (gradsPowF ts powers (n - 1) d k))) := by
  have hg : (expandLast (kmcGrads ts)).shape = [n - 1, d, 1] := by
    simp [expandLast, kmcGrads_shape ts hts]
  unfold kmcWeights broadcast2 gradsPowF
  rw [hg, hpow, broadcastShapes_grads]
  rfl

/-- Line 46 resolved for a `(N, D)` series against a `(D, K)` exponent
matrix: the weights form an `(N-1, K)` array whose `(i, t)` entry is the
product over the dimensions `j` of the `i`-th increment's `j`-th component
raised to `powers[j, t]` — the `t`-th *column* of `powers` drives the
`t`-th channel. -/
theorem kmcWeights_spec (ts : NDArray ℚ) (powers : NDArray ℤ)
    {n d k : ℕ} (hts : ts.shape = [n, d]) (hpow : powers.shape = [d, k]) :
    ∃ w : NDArray ℚ, kmcWeights ts powers = some w ∧ w.WF ∧
      w.shape = [n - 1, k] ∧
      ∀ i t, i < n - 1 → t < k →
        w.entry [i, t] = ((List.range d).map (fun j =>
          ((kmcGrads ts).entry [i, j]) ^ (powers.entry [j, t]))).prod := by
  have hg : (expandLast (kmcGrads ts)).shape = [n - 1, d, 1] := by
    simp [expandLast, kmcGrads_shape ts hts]
  refine ⟨_, kmcWeights_eq ts powers hts hpow, ?_, ?_, ?_⟩
  · unfold prodAxis
    exact ofFn_WF _ _
  · unfold prodAxis
    rw [ofFn_shape]
    rw [ofFn_shape]
    rfl
  · intro i t hi ht
    unfold prodAxis
    rw [ofFn_shape]
    have hsh : ([n - 1, d, k].take 1 ++ [n - 1, d, k].drop 2) = [n - 1, k] := rfl
    rw [hsh, ofFn_entry _ _ (List.forall₂_cons.mpr ⟨hi,
      List.forall₂_cons.mpr ⟨ht, List.Forall₂.nil⟩⟩)]
    have hd1 : ([n - 1, d, k].getD 1 1) = d := rfl
    rw [hd1]
    refine congrArg List.prod (List.map_congr_left ?_)
    intro j hj
    have hjd : j < d := List.mem_range.mp hj
    have hidx : ([i, t].take 1 ++ j :: [i, t].drop 1) = [i, j, t] := rfl
    rw [hidx, ofFn_entry _ _ (List.forall₂_cons.mpr ⟨hi,
      List.forall₂_cons.mpr ⟨hjd, List.forall₂_cons.mpr ⟨ht, List.Forall₂.nil⟩⟩⟩)]
    unfold gradsPowF
    have hpj1 : projIdx [n - 1, d, 1] [i, j, t] = [i, j, 0] := by
      unfold projIdx
      simp only [List.length_cons, List.length_nil, Nat.sub_self, List.drop_zero,
        List.zip_cons_cons, List.zip_nil_right, List.map_cons, List.map_nil]
      rw [proj_coord hi, proj_coord hjd]
      norm_num
    have hpj2 : projIdx [d, k] [i, j, t] = [j, t] :=
      projIdx_append [i] (List.forall₂_cons.mpr ⟨hjd,
        List.forall₂_cons.mpr ⟨ht, List.Forall₂.nil⟩⟩)
    rw [hpj1, hpj2]
    have hf1 : flattenIdx [n - 1, d, 1] [i, j, 0] = i * d + j := by
      simp [flattenIdx]
    have hf2 : flattenIdx [d, k] [j, t] = j * k + t := by
      simp [flattenIdx]
    rw [hf1, hf2]
    have hge : (kmcGrads ts).entry [i, j] = (kmcGrads ts).get (i * d + j) := by
      unfold NDArray.entry
      rw [kmcGrads_shape ts hts]
      simp [flattenIdx]
    have hpe : powers.entry [j, t] = powers.get (j * k + t) := by
      unfold NDArray.entry
      rw [hpow]
      simp [flattenIdx]
    rw [hge, hpe]
    rfl

theorem ofFn_data_congr {α : Type} (sh sh' : List ℕ) (F G : List ℕ → α)
    (hsh : sh = sh')
    (h : ∀ f, f < sh.prod → F (unflatten sh f) = G (unflatten sh f)) :
    NDArray.ofFn sh F = NDArray.ofFn sh' G := by
  subst hsh
  unfold NDArray.ofFn
  exact congrArg _ (List.map_congr_left (fun f hf => h f (List.mem_range.mp hf)))

theorem all_congr_mem {α : Type} (l : List α) (f g : α → Bool)
    (h : ∀ x ∈ l, f x = g x) : l.all f = l.all g := by
  induction l with
  | nil => rfl
  | cons a as ih =>
    simp only [List.all_cons, h a (List.mem_cons_self a as),
      ih (fun x hx => h x (List.mem_cons_of_mem _ hx))]

theorem histogramdd_ok (samples : NDArray ℚ) (bins : List ℕ)
    (weights : NDArray ℚ) {m d k : ℕ} (hs : samples.shape = [m, d])
    (hw : weights.shape = [m, k]) (hm : m ≠ 0) (hbl : bins.length = d)
    (hb : 0 ∉ bins) :
    histogramdd samples bins weights =
      .ok (histArr samples bins weights m d k,
        (List.range d).map (histEdgesAt samples bins m d)) := by
  unfold histogramdd
  rw [hs, hw]
  simp [hm, hbl, hb]

theorem histEdgesAt_length (samples : NDArray ℚ) (bins : List ℕ) (m d j : ℕ) :
    (histEdgesAt samples bins m d j).length = bins.getD j 1 + 1 := by
  simp [histEdgesAt]

/-- Fixing the trailing (channel) axis of the modelled histogram gives the
single-channel density histogram taken with the `t`-th weight column: the
channels all share one set of edges and bin assignments. -/
theorem sliceLast_histArr (samples : NDArray ℚ) (bins : List ℕ)
    (weights : NDArray ℚ) (m d k t : ℕ) (hbl : bins.length = d) (ht : t < k) :
    sliceLast (histArr samples bins weights m d k) t =
      histChan samples bins (fun i => weights.get (i * k + t)) m d := by
  unfold sliceLast histArr histChan
  rw [ofFn_shape]
  have hprod : (bins ++ [k]).prod = bins.prod * k := by simp
  have hlen : (bins ++ [k]).length - 1 = bins.length := by simp
  have h2 : (bins ++ [k]).getD bins.length 1 = k := by
    rw [List.getD_eq_getElem?_getD, List.getElem?_append_right (le_refl _)]
    simp
  have h1 : (bins ++ [k]).dropLast = bins := by simp
  rw [hlen, h2, h1]
  refine ofFn_data_congr _ _ _ _ rfl ?_
  intro f hf
  set idx := unflatten bins f with hidx
  have hidxlen : idx.length = d := by rw [hidx, unflatten_length, hbl]
  have hbound : f * k + t < (bins ++ [k]).prod := by
    rw [hprod]
    calc f * k + t < f * k + k := by omega
    _ = (f + 1) * k := by ring
    _ ≤ bins.prod * k := Nat.mul_le_mul_right _ (by omega)
  rw [flattenIdx_unflatten hf, ofFn_get _ _ _ hbound,
    unflatten_append_last hf ht]
  have hA : ∀ j, j < d → (idx ++ [t]).getD j 0 = idx.getD j 0 := by
    intro j hj
    rw [List.getD_eq_getElem?_getD, List.getElem?_append_left (by omega),
      ← List.getD_eq_getElem?_getD]
  have hB : (idx ++ [t]).getD d 0 = t := by
    rw [List.getD_eq_getElem?_getD,
      List.getElem?_append_right (by omega), hidxlen]
    simp
  congr 1
  refine congrArg List.sum (List.map_congr_left ?_)
  intro i _
  have hcond : ((List.range d).all
      (fun j => histBinIdx samples bins m d i j == (idx ++ [t]).getD j 0)) =
      ((List.range d).all
      (fun j => histBinIdx samples bins m d i j == idx.getD j 0)) :=
    all_congr_mem _ _ _ (fun j hj => by rw [hA j (List.mem_range.mp hj)])
  rw [hcond, hB]

theorem cartesian_product_shape (arrays : List (List ℚ)) :
    (cartesian_product arrays).shape =
      [(arrays.map List.length).prod, arrays.length] := rfl

theorem dropRow0_shape {n d : ℕ} (ts : NDArray ℚ) (hts : ts.shape = [n, d]) :
    (dropRow0 ts).shape = [n - 1, d] := by
  simp [dropRow0, hts]

theorem kmcKernelField_ok (kernel : NDArray ℚ → ℚ → NDArray ℚ) (bw : ℚ)
    (edges : List (List ℚ)) (hker : KernelWF kernel) :
    kmcKernelField kernel bw edges =
      .ok ⟨edges.map List.length, (kernel (cartesian_product edges) bw).data⟩ := by
  unfold kmcKernelField reshape
  have hlen : (kernel (cartesian_product edges) bw).data.length =
      (edges.map List.length).prod := by
    rw [hker]
    rfl
  simp [hlen]

theorem edges_map_length (samples : NDArray ℚ) (bins : List ℕ) (m d : ℕ)
    (hbl : bins.length = d) :
    ((List.range d).map (histEdgesAt samples bins m d)).map List.length =
      bins.map (fun b => b + 1) := by
  subst hbl
  rw [List.map_map]
  rw [← map_range_getD bins 1 (fun b => b + 1)]
  refine List.map_congr_left ?_
  intro j _
  exact histEdgesAt_length samples bins m bins.length j

theorem convolveSame_shape (a b : NDArray ℚ) : (convolveSame a b).shape = a.shape := rfl

theorem normalizeField_shape (kf : NDArray ℚ) :
    (normalizeField kf).shape = kf.shape := rfl

theorem stackLast_shape_of {k : ℕ} (g : ℕ → NDArray ℚ) (sh : List ℕ)
    (hk : 0 < k) (hg : ∀ p, (g p).shape = sh) :
    (stackLast ((List.range k).map g)).shape = sh ++ [k] := by
  unfold stackLast
  rw [headD_map_range g ⟨[], []⟩ hk, hg 0]
  simp

/-- Extracting channel `t` from the stacked per-channel results gives back
the `t`-th result: the stack/slice round trip. -/
theorem sliceLast_stackLast_ofFn (sh : List ℕ) {k : ℕ} (F : ℕ → List ℕ → ℚ)
    {t : ℕ} (ht : t < k) :
    sliceLast (stackLast ((List.range k).map (fun p => NDArray.ofFn sh (F p)))) t =
      NDArray.ofFn sh (F t) := by
  have hk : 0 < k := by omega
  have hshape : (stackLast ((List.range k).map (fun p => NDArray.ofFn sh (F p)))).shape
      = sh ++ [k] := stackLast_shape_of _ sh hk (fun p => ofFn_shape _ _)
  unfold sliceLast
  rw [hshape]
  have hlen : (sh ++ [k]).length - 1 = sh.length := by simp
  have h2 : (sh ++ [k]).getD sh.length 1 = k := by
    rw [List.getD_eq_getElem?_getD, List.getElem?_append_right (le_refl _)]
    simp
  have h1 : (sh ++ [k]).dropLast = sh := by simp
  rw [hlen, h2, h1]
  refine ofFn_data_congr _ _ _ _ rfl ?_
  intro f hf
  rw [flattenIdx_unflatten hf]
  show (stackLast ((List.range k).map (fun p => NDArray.ofFn sh (F p)))).get (f * k + t) = _
  unfold stackLast NDArray.get
  simp only [headD_map_range _ (⟨[], []⟩ : NDArray ℚ) hk, ofFn_shape]
  have hrows : ∀ r ∈ (List.range sh.prod).map
      (fun f => ((List.range k).map (fun p => NDArray.ofFn sh (F p))).map
        (fun a => a.data.getD f 0)), r.length = k := by
    intro r hr
    obtain ⟨f', _, rfl⟩ := List.mem_map.mp hr
    simp
  rw [flatten_getD _ k hrows ht (by simpa using hf) 0,
    getD_map_range _ _ hf, List.map_map, getD_map_range _ _ ht]
  show (NDArray.ofFn sh (F t)).get f = _
  rw [ofFn_get _ _ _ hf]

/-- On a valid input every stage of the pipeline succeeds, and the result
is the stack of the per-channel `mode='same'` convolutions of the
normalized kernel field with the histogram channels.  Backbone lemma
shared by the claims below. -/
theorem kmc_ok (ts : NDArray ℚ) (bins : List ℕ)
    (kernel : NDArray ℚ → ℚ → NDArray ℚ) (bw : ℚ) (powers : NDArray ℤ)
    {n d k : ℕ} (hts : ts.shape = [n, d]) (hn : 2 ≤ n)
    (hpow : powers.shape = [d, k]) (hk : 0 < k)
    (hbl : bins.length = d) (hb : 0 ∉ bins) (hker : KernelWF kernel) :
    ∃ w kf,
      kmcWeights ts powers = some w ∧
      w.shape = [n - 1, k] ∧
      kmcHist ts bins powers = .ok
        (histArr (dropRow0 ts) bins w (n - 1) d k,
         (List.range d).map (histEdgesAt (dropRow0 ts) bins (n - 1) d)) ∧
      kmcKernelField kernel bw
        ((List.range d).map (histEdgesAt (dropRow0 ts) bins (n - 1) d)) = .ok kf ∧
      kf.shape = bins.map (fun b => b + 1) ∧
      kmc_kernel_estimator ts bins kernel bw powers =
        .ok (stackLast ((List.range k).map (fun p =>
          convolveSame (normalizeField kf)
            (sliceLast (histArr (dropRow0 ts) bins w (n - 1) d k) p))),
          (List.range d).map (histEdgesAt (dropRow0 ts) bins (n - 1) d)) := by
  obtain ⟨w, hw, hwWF, hwsh, hwe⟩ := kmcWeights_spec ts powers hts hpow
  have hss : (dropRow0 ts).shape = [n - 1, d] := dropRow0_shape ts hts
  have hhist : kmcHist ts bins powers = .ok
      (histArr (dropRow0 ts) bins w (n - 1) d k,
       (List.range d).map (histEdgesAt (dropRow0 ts) bins (n - 1) d)) := by
    unfold kmcHist
    rw [hw]
    exact histogramdd_ok (dropRow0 ts) bins w hss hwsh (by omega) hbl hb
  have hkf := kmcKernelField_ok kernel bw
    ((List.range d).map (histEdgesAt (dropRow0 ts) bins (n - 1) d)) hker
  have hkfsh : ((⟨((List.range d).map (histEdgesAt (dropRow0 ts) bins (n - 1) d)).map
      List.length,
      (kernel (cartesian_product ((List.range d).map
        (histEdgesAt (dropRow0 ts) bins (n - 1) d))) bw).data⟩ : NDArray ℚ)).shape
      = bins.map (fun b => b + 1) :=
    edges_map_length (dropRow0 ts) bins (n - 1) d hbl
  refine ⟨w, _, hw, hwsh, hhist, hkf, hkfsh, ?_⟩
  have hhsh : (histArr (dropRow0 ts) bins w (n - 1) d k).shape = bins ++ [k] :=
    ofFn_shape _ _
  have hgetD : (bins ++ [k]).getD ((bins ++ [k]).length - 1) 0 = k := by
    have hl : (bins ++ [k]).length - 1 = bins.length := by simp
    rw [hl, List.getD_eq_getElem?_getD, List.getElem?_append_right (le_refl _)]
    simp
  simp only [kmc_kernel_estimator, hhist, hkf, hpow, hhsh, hgetD]
  rw [if_neg (by omega), if_neg (by omega)]

/-- C1, corrected: for every valid input — a series of shape `(N, D)` with
`N ≥ 2`, `D` positive per-dimension bin counts, a kernel obeying the §4.3
mesh contract whose field on the pipeline's mesh is non-degenerate, and an
exponent matrix of shape `(D, K)` with `K ≥ 1` channels —
`kmc_kernel_estimator` returns a result array of shape
`(bins[0]+1, ..., bins[D-1]+1, K)` (one cell per *edge*, not per bin, in
every dimension, since the kernel field is built on the edge grid and
`convolve(..., mode='same')` takes the size of its first operand) together
with `D` edge sequences, the `d`-th of length `bins[d] + 1`. -/
theorem C1_result_shape (ts : NDArray ℚ) (bins : List ℕ)
    (kernel : NDArray ℚ → ℚ → NDArray ℚ) (bw : ℚ) (powers : NDArray ℤ)
    {n d k : ℕ} (hts : ts.shape = [n, d]) (hn : 2 ≤ n)
    (hpow : powers.shape = [d, k]) (hk : 0 < k)
    (hbl : bins.length = d) (hb : 0 ∉ bins) (hker : KernelWF kernel)
    (hnz : (kernel (cartesian_product ((List.range d).map
      (histEdgesAt (dropRow0 ts) bins (n - 1) d))) bw).data.sum ≠ 0) :
    ∃ res edges,
      kmc_kernel_estimator ts bins kernel bw powers = .ok (res, edges) ∧
      res.shape = bins.map (fun b => b + 1) ++ [k] ∧
      edges.length = d ∧
      ∀ j, j < d → (edges.getD j []).length = bins.getD j 0 + 1 := by
  obtain ⟨w, kf, hw, hwsh, hhist, hkf, hkfsh, hres⟩ :=
    kmc_ok ts bins kernel bw powers hts hn hpow hk hbl hb hker
  refine ⟨_, _, hres, ?_, ?_, ?_⟩
  · exact stackLast_shape_of _ (bins.map (fun b => b + 1)) hk
      (fun p => by rw [convolveSame_shape, normalizeField_shape, hkfsh])
  · simp
  · intro j hj
    rw [getD_map_range _ _ (by omega), histEdgesAt_length]
    have hj' : j < bins.length := by omega
    have e : bins.getD j 1 = bins.getD j 0 := by
      rw [List.getD_eq_getElem?_getD, List.getD_eq_getElem?_getD,
        List.getElem?_eq_getElem hj']
      rfl
    rw [e]

/-- Witness for C1: the valid input `tsA`, `bins = [2]`, the constant
kernel, one drift channel; every hypothesis holds and the returned shapes
are as amended. -/
theorem C1_result_shape_witness :
    ∃ res edges,
      kmc_kernel_estimator tsA [2] kerConst 1 powA = .ok (res, edges) ∧
      res.shape = [2].map (fun b => b + 1) ++ [1] ∧
      edges.length = 1 ∧
      ∀ j, j < 1 → (edges.getD j []).length = [2].getD j 0 + 1 :=
  C1_result_shape tsA [2] kerConst 1 powA (n := 3) (d := 1) (k := 1)
    (by with_unfolding_all decide) (by decide) (by with_unfolding_all decide)
    (by decide) (by decide) (by decide)
    (fun mesh b => by simp [kerConst, KernelWF])
    (by with_unfolding_all decide)

/-- C1 counterexample: on the valid input `tsA` with `bins = [2]` and one
channel the claim asserts result shape `(*bins, K) = [2, 1]`; the
estimator actually returns shape `[3, 1]`. -/
theorem C1_cx :
    ((kmc_kernel_estimator tsA [2] kerConst 1 powA).toOption.map
      (fun r => r.1.shape)) = some [3, 1] ∧ ([3, 1] : List ℕ) ≠ [2, 1] :=
  ⟨by with_unfolding_all decide, by decide⟩

/-- C5, corrected: on a valid input the mesh handed to the caller's kernel
is the Cartesian product of the *edges*: it has `∏ (bins[d] + 1)` rows
(not `∏ bins[d]`) of `D` coordinates each, and the kernel field obtained
by reshaping the kernel's output has shape `(bins[0]+1, ..., bins[D-1]+1)`
(one entry per edge-grid point, not shape `bins`). -/
theorem C5_mesh_shape (ts : NDArray ℚ) (bins : List ℕ)
    (kernel : NDArray ℚ → ℚ → NDArray ℚ) (bw : ℚ) (powers : NDArray ℤ)
    {n d k : ℕ} (hts : ts.shape = [n, d]) (hn : 2 ≤ n)
    (hpow : powers.shape = [d, k]) (hk : 0 < k)
    (hbl : bins.length = d) (hb : 0 ∉ bins) (hker : KernelWF kernel) :
    ∃ hist edges kf,
      kmcHist ts bins powers = .ok (hist, edges) ∧
      kmcKernelField kernel bw edges = .ok kf ∧
      (cartesian_product edges).shape = [(bins.map (fun b => b + 1)).prod, d] ∧
      kf.shape = bins.map (fun b => b + 1) := by
  obtain ⟨w, kf, hw, hwsh, hhist, hkf, hkfsh, hres⟩ :=
    kmc_ok ts bins kernel bw powers hts hn hpow hk hbl hb hker
  refine ⟨_, _, _, hhist, hkf, ?_, hkfsh⟩
  rw [cartesian_product_shape, edges_map_length (dropRow0 ts) bins (n - 1) d hbl]
  simp

/-- Witness for C5 at the valid input `tsA`, `bins = [2]`. -/
theorem C5_mesh_shape_witness :
    ∃ hist edges kf,
      kmcHist tsA [2] powA = .ok (hist, edges) ∧
      kmcKernelField kerConst 1 edges = .ok kf ∧
      (cartesian_product edges).shape = [([2].map (fun b => b + 1)).prod, 1] ∧
      kf.shape = [2].map (fun b => b + 1) :=
  C5_mesh_shape tsA [2] kerConst 1 powA (n := 3) (d := 1) (k := 1)
    (by with_unfolding_all decide) (by decide) (by with_unfolding_all decide)
    (by decide) (by decide) (by decide)
    (fun mesh b => by simp [kerConst, KernelWF])

/-- C5 counterexample: on the valid input `tsA` with `bins = [2]` the
pipeline's edges are `[[1, 2, 3]]`; the mesh over them has `3` rows where
the claim asserts `∏ bins[d] = 2`. -/
theorem C5_cx :
    kmcHist tsA [2] powA = .ok (⟨[2, 1], [1/2, 1]⟩, [[1, 2, 3]]) ∧
    (cartesian_product [[1, 2, 3]]).shape = [3, 1] ∧ (3 : ℕ) ≠ [2].prod :=
  ⟨by with_unfolding_all decide, by with_unfolding_all decide, by decide⟩

/-- The stack/slice round trip for a family of convolutions. -/
theorem sliceLast_stackLast_conv (kn : NDArray ℚ) (hists : ℕ → NDArray ℚ)
    {k t : ℕ} (ht : t < k) :
    sliceLast (stackLast ((List.range k).map
      (fun p => convolveSame kn (hists p)))) t = convolveSame kn (hists t) := by
  simp only [convolveSame]
  exact sliceLast_stackLast_ofFn _ _ ht

/-- C6, corrected: on a valid input every output channel `t` is exactly the
centered, zero-padded (`mode='same'`) linear convolution of the normalized
kernel field with histogram channel `t` alone — no other channel enters
channel `t` — and the `K` per-channel results are stacked along a new
trailing axis; but each convolution output has the *kernel field's* shape
`(bins[d]+1, ...)` — the shape of `convolve`'s first operand — not the
histogram channel's shape `bins`. -/
theorem C6_channels (ts : NDArray ℚ) (bins : List ℕ)
    (kernel : NDArray ℚ → ℚ → NDArray ℚ) (bw : ℚ) (powers : NDArray ℤ)
    {n d k : ℕ} (hts : ts.shape = [n, d]) (hn : 2 ≤ n)
    (hpow : powers.shape = [d, k]) (hk : 0 < k)
    (hbl : bins.length = d) (hb : 0 ∉ bins) (hker : KernelWF kernel) :
    ∃ w res edges kf,
      kmc_kernel_estimator ts bins kernel bw powers = .ok (res, edges) ∧
      kmcWeights ts powers = some w ∧
      kmcKernelField kernel bw edges = .ok kf ∧
      res = stackLast ((List.range k).map (fun p =>
        convolveSame (normalizeField kf)
          (sliceLast (histArr (dropRow0 ts) bins w (n - 1) d k) p))) ∧
      ∀ t, t < k →
        sliceLast res t =
          convolveSame (normalizeField kf)
            (sliceLast (histArr (dropRow0 ts) bins w (n - 1) d k) t) ∧
        (sliceLast res t).shape = bins.map (fun b => b + 1) := by
  obtain ⟨w, kf, hw, hwsh, hhist, hkf, hkfsh, hres⟩ :=
    kmc_ok ts bins kernel bw powers hts hn hpow hk hbl hb hker
  refine ⟨w, _, _, kf, hres, hw, hkf, rfl, ?_⟩
  intro t ht
  have hslice : sliceLast (stackLast ((List.range k).map (fun p =>
      convolveSame (normalizeField kf)
        (sliceLast (histArr (dropRow0 ts) bins w (n - 1) d k) p)))) t =
      convolveSame (normalizeField kf)
        (sliceLast (histArr (dropRow0 ts) bins w (n - 1) d k) t) :=
    sliceLast_stackLast_conv (normalizeField kf)
      (fun p => sliceLast (histArr (dropRow0 ts) bins w (n - 1) d k) p) ht
  refine ⟨hslice, ?_⟩
  rw [hslice, convolveSame_shape, normalizeField_shape, hkfsh]

/-- Witness for C6 at the valid input `tsA`, `bins = [2]`. -/
theorem C6_channels_witness :
    ∃ w res edges kf,
      kmc_kernel_estimator tsA [2] kerConst 1 powA = .ok (res, edges) ∧
      kmcWeights tsA powA = some w ∧
      kmcKernelField kerConst 1 edges = .ok kf ∧
      res = stackLast ((List.range 1).map (fun p =>
        convolveSame (normalizeField kf)
          (sliceLast (histArr (dropRow0 tsA) [2] w (3 - 1) 1 1) p))) ∧
      ∀ t, t < 1 →
        sliceLast res t =
          convolveSame (normalizeField kf)
            (sliceLast (histArr (dropRow0 tsA) [2] w (3 - 1) 1 1) t) ∧
        (sliceLast res t).shape = [2].map (fun b => b + 1) :=
  C6_channels tsA [2] kerConst 1 powA (n := 3) (d := 1) (k := 1)
    (by with_unfolding_all decide) (by decide) (by with_unfolding_all decide)
    (by decide) (by decide) (by decide)
    (fun mesh b => by simp [kerConst, KernelWF])

/-- C6 counterexample: on the valid input `tsA` with `bins = [2]` the
output channel has shape `[3]`, not the histogram channel's shape `[2]`
the claim asserts. -/
theorem C6_cx :
    ((kmc_kernel_estimator tsA [2] kerConst 1 powA).toOption.map
      (fun r => (sliceLast r.1 0).shape)) = some [3] ∧ ([3] : List ℕ) ≠ [2] :=
  ⟨by with_unfolding_all decide, by decide⟩

theorem dropRow0_entry {n d : ℕ} (ts : NDArray ℚ) (hts : ts.shape = [n, d])
    {i j : ℕ} (hi : i < n - 1) (hj : j < d) :
    (dropRow0 ts).entry [i, j] = ts.entry [i + 1, j] := by
  unfold NDArray.entry NDArray.get dropRow0
  rw [hts]
  simp only [List.headD_cons, List.tail_cons, List.prod_cons, List.prod_nil,
    Nat.mul_one, flattenIdx]
  rw [List.getD_eq_getElem?_getD, List.getElem?_drop, ← List.getD_eq_getElem?_getD,
    (by ring : d + (i * d + (j + 0)) = (i + 1) * d + (j + 0))]

theorem histChan_congr_wt (samples : NDArray ℚ) (bins : List ℕ)
    (m d : ℕ) (wt wt' : ℕ → ℚ) (h : ∀ i, i < m → wt i = wt' i) :
    histChan samples bins wt m d = histChan samples bins wt' m d := by
  unfold histChan
  refine ofFn_data_congr _ _ _ _ rfl ?_
  intro f hf
  congr 1
  refine congrArg List.sum (List.map_congr_left ?_)
  intro i hi
  rw [h i (List.mem_range.mp hi)]

/-- C2, corrected: the weighted histogram that gets smoothed is a histogram
of `timeseries[1:, ...]` — the observed states from the second sample on,
one binned row per increment — and *not* of the increments themselves;
within it, all `K` channels share the same edges and bin assignments, and
channel `t` is the single-channel density histogram of those samples under
weight column `t`. -/
theorem C2_binned_samples (ts : NDArray ℚ) (bins : List ℕ)
    (powers : NDArray ℤ) {n d k : ℕ} (hts : ts.shape = [n, d]) (hn : 2 ≤ n)
    (hpow : powers.shape = [d, k]) (hbl : bins.length = d) (hb : 0 ∉ bins) :
    ∃ w hist edges,
      kmcWeights ts powers = some w ∧
      kmcHist ts bins powers = .ok (hist, edges) ∧
      hist = histArr (dropRow0 ts) bins w (n - 1) d k ∧
      (dropRow0 ts).shape = [n - 1, d] ∧
      (∀ i j, i < n - 1 → j < d →
        (dropRow0 ts).entry [i, j] = ts.entry [i + 1, j]) ∧
      (∀ t, t < k → sliceLast hist t =
        histChan (dropRow0 ts) bins (fun i => w.get (i * k + t)) (n - 1) d) := by
  obtain ⟨w, hw, hWF, hsh, he⟩ := kmcWeights_spec ts powers hts hpow
  have hss : (dropRow0 ts).shape = [n - 1, d] := dropRow0_shape ts hts
  have hhist : kmcHist ts bins powers = .ok
      (histArr (dropRow0 ts) bins w (n - 1) d k,
       (List.range d).map (histEdgesAt (dropRow0 ts) bins (n - 1) d)) := by
    unfold kmcHist
    rw [hw]
    exact histogramdd_ok (dropRow0 ts) bins w hss hsh (by omega) hbl hb
  refine ⟨w, _, _, hw, hhist, rfl, hss,
    fun i j hi hj => dropRow0_entry ts hts hi hj, ?_⟩
  intro t ht
  exact sliceLast_histArr (dropRow0 ts) bins w (n - 1) d k t hbl ht

/-- Witness for C2 at the valid input `tsA`, `bins = [2]`. -/
theorem C2_binned_samples_witness :
    ∃ w hist edges,
      kmcWeights tsA powA = some w ∧
      kmcHist tsA [2] powA = .ok (hist, edges) ∧
      hist = histArr (dropRow0 tsA) [2] w (3 - 1) 1 1 ∧
      (dropRow0 tsA).shape = [3 - 1, 1] ∧
      (∀ i j, i < 3 - 1 → j < 1 →
        (dropRow0 tsA).entry [i, j] = tsA.entry [i + 1, j]) ∧
      (∀ t, t < 1 → sliceLast hist t =
        histChan (dropRow0 tsA) [2] (fun i => w.get (i * 1 + t)) (3 - 1) 1) :=
  C2_binned_samples tsA [2] powA (n := 3) (d := 1) (k := 1)
    (by with_unfolding_all decide) (by decide) (by with_unfolding_all decide)
    (by decide) (by decide)

/-- C2 counterexample: on the valid input `tsA` the histogram stage (which
bins `timeseries[1:] = [[1], [3]]`) differs from the spec's description
(binning the increments `[[1], [2]]`, `kmcHistSpecC2`): samples, edges
and contents all differ. -/
theorem C2_cx :
    kmcHist tsA [2] powA = .ok (⟨[2, 1], [1/2, 1]⟩, [[1, 2, 3]]) ∧
    kmcHistSpecC2 tsA [2] powA = .ok (⟨[2, 1], [1, 2]⟩, [[1, 3/2, 2]]) ∧
    kmcHist tsA [2] powA ≠ kmcHistSpecC2 tsA [2] powA :=
  ⟨by with_unfolding_all decide, by with_unfolding_all decide,
    by with_unfolding_all decide⟩

/-- C3, corrected: the code uses the exponent matrix in the `(D, K)`
orientation (dimensions × channels): for a `(N, D)` series and a `(D, K)`
powers matrix the weights form an `(N-1, K)` array with entry
`(i, t) = ∏_j (ts[i+1, j] − ts[i, j]) ^ powers[j, t]` — *column* `t` of
`powers`, not row `t`, defines the moment of output channel `t` (with the
claimed `(K, D)` layout the broadcast works along the wrong axis, or not
at all). -/
theorem C3_weights (ts : NDArray ℚ) (powers : NDArray ℤ)
    {n d k : ℕ} (hts : ts.shape = [n, d]) (hpow : powers.shape = [d, k]) :
    ∃ w, kmcWeights ts powers = some w ∧ w.shape = [n - 1, k] ∧
      ∀ i t, i < n - 1 → t < k →
        w.entry [i, t] = ((List.range d).map (fun j =>
          (ts.entry [i + 1, j] - ts.entry [i, j]) ^ powers.entry [j, t])).prod := by
  obtain ⟨w, hw, hWF, hsh, he⟩ := kmcWeights_spec ts powers hts hpow
  refine ⟨w, hw, hsh, ?_⟩
  intro i t hi ht
  rw [he i t hi ht]
  refine congrArg List.prod (List.map_congr_left ?_)
  intro j hj
  rw [kmcGrads_entry ts hts hi (List.mem_range.mp hj)]

/-- Witness for C3 at `tsA` and the `(1, 1)` exponent matrix. -/
theorem C3_weights_witness :
    ∃ w, kmcWeights tsA powA = some w ∧ w.shape = [3 - 1, 1] ∧
      ∀ i t, i < 3 - 1 → t < 1 →
        w.entry [i, t] = ((List.range 1).map (fun j =>
          (tsA.entry [i + 1, j] - tsA.entry [i, j]) ^ powA.entry [j, t])).prod :=
  C3_weights tsA powA (n := 3) (d := 1) (k := 1)
    (by with_unfolding_all decide) (by with_unfolding_all decide)

/-- C3 counterexample: `tsB` is a 2-sample 1-D series (`N = 2`, `D = 1`)
and `powB` a `(2, 1)` matrix — the claim's `(K, D)` layout of the two
moment rows `[1]` and `[2]`.  The claim calls for weights of shape
`(N−1, K) = [1, 2]` holding `[2, 4]`; the code broadcasts along the other
axis and returns the shape-`[1, 1]` array `[8]` — the *product* of the
two claimed channels. -/
theorem C3_cx :
    (kmcWeights tsB powB).map (fun w => w.shape) = some [1, 1] ∧
    (kmcWeights tsB powB).map (fun w => w.data) = some [8] ∧
    some [1, 1] ≠ some ([1, 2] : List ℕ) :=
  ⟨by with_unfolding_all decide, by with_unfolding_all decide, by decide⟩

/-- C9, corrected: a channel `t` whose powers *column* (not row) is all
zero has every per-sample weight equal to 1, and its histogram channel is
the plain unweighted density histogram of the binned samples — which are
`timeseries[1:, ...]`, not the increments. -/
theorem C9_zero_power (ts : NDArray ℚ) (bins : List ℕ) (powers : NDArray ℤ)
    {n d k t : ℕ} (hts : ts.shape = [n, d]) (hn : 2 ≤ n)
    (hpow : powers.shape = [d, k]) (hbl : bins.length = d) (hb : 0 ∉ bins)
    (ht : t < k) (hz : ∀ j, j < d → powers.entry [j, t] = 0) :
    ∃ w hist edges,
      kmcWeights ts powers = some w ∧
      kmcHist ts bins powers = .ok (hist, edges) ∧
      (∀ i, i < n - 1 → w.entry [i, t] = 1) ∧
      sliceLast hist t = histChan (dropRow0 ts) bins (fun _ => 1) (n - 1) d := by
  obtain ⟨w, hw, hWF, hsh, he⟩ := kmcWeights_spec ts powers hts hpow
  have hone : ∀ i, i < n - 1 → w.entry [i, t] = 1 := by
    intro i hi
    rw [he i t hi ht]
    refine List.prod_eq_one ?_
    intro x hx
    obtain ⟨j, hj, rfl⟩ := List.mem_map.mp hx
    rw [hz j (List.mem_range.mp hj), zpow_zero]
  have hss : (dropRow0 ts).shape = [n - 1, d] := dropRow0_shape ts hts
  have hhist : kmcHist ts bins powers = .ok
      (histArr (dropRow0 ts) bins w (n - 1) d k,
       (List.range d).map (histEdgesAt (dropRow0 ts) bins (n - 1) d)) := by
    unfold kmcHist
    rw [hw]
    exact histogramdd_ok (dropRow0 ts) bins w hss hsh (by omega) hbl hb
  refine ⟨w, _, _, hw, hhist, hone, ?_⟩
  rw [sliceLast_histArr (dropRow0 ts) bins w (n - 1) d k t hbl ht]
  refine histChan_congr_wt _ _ _ _ _ _ ?_
  intro i hi
  have hentry : w.entry [i, t] = w.get (i * k + t) := by
    unfold NDArray.entry
    rw [hsh]
    simp [flattenIdx]
  rw [← hentry, hone i hi]

/-- Witness for C9: the series `tsC` with the exponent matrix
`⟨[2, 2], [0, 1, 0, 1]⟩`, whose column 0 is all zero — channel 0 has unit
weights and a plain density histogram. -/
theorem C9_zero_power_witness :
    ∃ w hist edges,
      kmcWeights tsC (⟨[2, 2], [0, 1, 0, 1]⟩ : NDArray ℤ) = some w ∧
      kmcHist tsC [1, 1] (⟨[2, 2], [0, 1, 0, 1]⟩ : NDArray ℤ) = .ok (hist, edges) ∧
      (∀ i, i < 2 - 1 → w.entry [i, 0] = 1) ∧
      sliceLast hist 0 = histChan (dropRow0 tsC) [1, 1] (fun _ => 1) (2 - 1) 2 :=
  C9_zero_power tsC [1, 1] (⟨[2, 2], [0, 1, 0, 1]⟩ : NDArray ℤ)
    (n := 2) (d := 2) (k := 2) (t := 0)
    (by with_unfolding_all decide) (by decide) (by with_unfolding_all decide)
    (by decide) (by decide) (by decide) (by with_unfolding_all decide)

/-- C9 counterexample: for the 2-D series `tsC` (increment `(2, 3)`) and
`powC`, whose *row* 0 is `[0, 0]`, channel 0's weight is
`2^0 * 3^1 = 3 ≠ 1`: an all-zero row does not give a unit-weight channel
(an all-zero column does). -/
theorem C9_cx :
    (kmcWeights tsC powC).map (fun w => w.entry [0, 0]) = some 3 ∧
    (3 : ℚ) ≠ 1 :=
  ⟨by with_unfolding_all decide, by with_unfolding_all decide⟩

/-- With a zero total, every entry of the normalized field is the junk
value `x / 0` (`0` in ℚ, `NaN` in floating point) — no error is raised. -/
theorem normalizeField_zero_sum (kf : NDArray ℚ) (h : kf.data.sum = 0) :
    ∀ i, (normalizeField kf).get i = 0 := by
  intro i
  unfold normalizeField NDArray.get
  rw [h]
  simp only [List.getD_eq_getElem?_getD, List.getElem?_map]
  cases kf.data[i]? with
  | none => rfl
  | some x => simp

/-- C4, corrected: there is no degenerate-kernel check.  On a valid input
whose kernel returns fields summing to zero the estimator does *not*
raise any error — no `DegenerateKernelError` exists in the code — it
normalizes by dividing by the zero total (a `0/0`, NaN-filled array in
floating point; the junk value 0 in the exact rational embedding) and
returns a result array. -/
theorem C4_no_degeneracy_check (ts : NDArray ℚ) (bins : List ℕ)
    (kernel : NDArray ℚ → ℚ → NDArray ℚ) (bw : ℚ) (powers : NDArray ℤ)
    {n d k : ℕ} (hts : ts.shape = [n, d]) (hn : 2 ≤ n)
    (hpow : powers.shape = [d, k]) (hk : 0 < k)
    (hbl : bins.length = d) (hb : 0 ∉ bins) (hker : KernelWF kernel)
    (hz : ∀ mesh b, (kernel mesh b).data.sum = 0) :
    ∃ res edges kf,
      kmc_kernel_estimator ts bins kernel bw powers = .ok (res, edges) ∧
      kmcKernelField kernel bw edges = .ok kf ∧
      kf.data.sum = 0 ∧
      (∀ i, (normalizeField kf).get i = 0) := by
  obtain ⟨w, kf, hw, hwsh, hhist, hkf, hkfsh, hres⟩ :=
    kmc_ok ts bins kernel bw powers hts hn hpow hk hbl hb hker
  have h2 := kmcKernelField_ok kernel bw
    ((List.range d).map (histEdgesAt (dropRow0 ts) bins (n - 1) d)) hker
  rw [hkf] at h2
  injection h2 with hkfeq
  have hsum : kf.data.sum = 0 := by
    rw [hkfeq]
    exact hz _ _
  exact ⟨_, _, kf, hres, hkf, hsum, normalizeField_zero_sum kf hsum⟩

/-- Witness for C4: the all-zero kernel on the valid input `tsA`. -/
theorem C4_no_degeneracy_check_witness :
    ∃ res edges kf,
      kmc_kernel_estimator tsA [2] kerZero 1 powA = .ok (res, edges) ∧
      kmcKernelField kerZero 1 edges = .ok kf ∧
      kf.data.sum = 0 ∧
      (∀ i, (normalizeField kf).get i = 0) :=
  C4_no_degeneracy_check tsA [2] kerZero 1 powA (n := 3) (d := 1) (k := 1)
    (by with_unfolding_all decide) (by decide) (by with_unfolding_all decide)
    (by decide) (by decide) (by decide)
    (fun mesh b => by simp [kerZero, KernelWF])
    (fun mesh b => by simp [kerZero])

/-- C4 counterexample: with the all-zero kernel on the valid input `tsA`
the estimator returns normally (a NaN-filled array in floating point; all
zeros in the rational embedding) — it does not fail with any error. -/
theorem C4_cx :
    kmc_kernel_estimator tsA [2] kerZero 1 powA =
      .ok (⟨[3, 1], [0, 0, 0]⟩, [[1, 2, 3]]) ∧
    (kmc_kernel_estimator tsA [2] kerZero 1 powA).isOk = true :=
  ⟨by with_unfolding_all decide, by with_unfolding_all decide⟩

/-- C7, corrected: the estimator performs no validation of its own — none
of the claimed error classes exists in the code.  (i) A powers matrix
containing negative entries is accepted: on an otherwise valid input the
estimator returns a result instead of raising `InvalidPowerError` — the
negative exponent is simply applied.  (ii) A timeseries with a single
sample is not rejected at the boundary: the call proceeds (the increment
array is empty, the weights get computed) and what surfaces is the
histogram stage's own empty-data failure, not an eager
`InsufficientDataError`. -/
theorem C7_no_validation :
    (∀ (ts : NDArray ℚ) (bins : List ℕ) (kernel : NDArray ℚ → ℚ → NDArray ℚ)
      (bw : ℚ) (powers : NDArray ℤ) (n d k : ℕ),
      ts.shape = [n, d] → 2 ≤ n → powers.shape = [d, k] → 0 < k →
      bins.length = d → 0 ∉ bins → KernelWF kernel →
      (∃ j t, j < d ∧ t < k ∧ powers.entry [j, t] < 0) →
      ∃ r, kmc_kernel_estimator ts bins kernel bw powers = .ok r) ∧
    (∀ (ts : NDArray ℚ) (bins : List ℕ) (kernel : NDArray ℚ → ℚ → NDArray ℚ)
      (bw : ℚ) (powers : NDArray ℤ) (d k : ℕ),
      ts.shape = [1, d] → powers.shape = [d, k] →
      kmc_kernel_estimator ts bins kernel bw powers = .error .histArgs) := by
  constructor
  · intro ts bins kernel bw powers n d k hts hn hpow hk hbl hb hker _
    obtain ⟨w, kf, hw, hwsh, hhist, hkf, hkfsh, hres⟩ :=
      kmc_ok ts bins kernel bw powers hts hn hpow hk hbl hb hker
    exact ⟨_, hres⟩
  · intro ts bins kernel bw powers d k hts hpow
    have hw := kmcWeights_eq ts powers (n := 1) hts hpow
    have hss : (dropRow0 ts).shape = [0, d] := by
      simpa using dropRow0_shape ts hts
    have hwsh : (prodAxis 1 (NDArray.ofFn [1 - 1, d, k]
        (gradsPowF ts powers (1 - 1) d k))).shape = [0, k] := by
      unfold prodAxis
      rw [ofFn_shape]
      rw [ofFn_shape]
      rfl
    have hhist : kmcHist ts bins powers = .error .histArgs := by
      unfold kmcHist
      rw [hw]
      show histogramdd (dropRow0 ts) bins
        (prodAxis 1 (NDArray.ofFn [1 - 1, d, k]
          (gradsPowF ts powers (1 - 1) d k))) = .error .histArgs
      unfold histogramdd
      rw [hss, hwsh]
      simp
    unfold kmc_kernel_estimator
    rw [hhist]

/-- Witness for C7: the negative exponent `powNeg` on the valid input
`tsA` — the estimator returns a result. -/
theorem C7_no_validation_witness :
    ∃ r, kmc_kernel_estimator tsA [2] kerConst 1 powNeg = .ok r :=
  C7_no_validation.1 tsA [2] kerConst 1 powNeg 3 1 1
    (by with_unfolding_all decide) (by decide) (by with_unfolding_all decide)
    (by decide) (by decide) (by decide)
    (fun mesh b => by simp [kerConst, KernelWF])
    ⟨0, 0, by decide, by decide, by with_unfolding_all decide⟩

/-- C7 counterexample: a powers matrix holding the negative exponent `-1`
is not rejected — the estimator returns a full result (applying `x^(-1)`)
— and a 1-sample series is not rejected eagerly either: it fails only in
the histogram stage, not with the claimed `InsufficientDataError` at the
estimator's boundary. -/
theorem C7_cx :
    kmc_kernel_estimator tsA [2] kerConst 1 powNeg =
      .ok (⟨[3, 1], [1/6, 1/4, 1/4]⟩, [[1, 2, 3]]) ∧
    kmc_kernel_estimator tsD [2] kerConst 1 powA = .error .histArgs :=
  ⟨by with_unfolding_all decide, by with_unfolding_all decide⟩

theorem flatten_drop_take {α : Type} (l : List (List α)) (k : ℕ)
    (hk : ∀ r ∈ l, r.length = k) {i : ℕ} (hi : i < l.length) :
    (l.flatten.drop (i * k)).take k = l.getD i [] := by
  induction l generalizing i with
  | nil => simp at hi
  | cons r rs ih =>
    have hr : r.length = k := hk r (List.mem_cons_self r rs)
    cases i with
    | zero =>
      rw [Nat.zero_mul, List.drop_zero, List.flatten_cons, List.getD_cons_zero,
        ← hr, List.take_left]
    | succ i =>
      have h3 : (i + 1) * k = r.length + i * k := by rw [hr]; ring
      rw [List.flatten_cons, List.getD_cons_succ, h3, List.drop_append]
      exact ih (fun x hx => hk x (List.mem_cons_of_mem _ hx)) (by simpa using hi)

theorem getD_map_length (arrays : List (List ℚ)) {j : ℕ}
    (hj : j < arrays.length) :
    (arrays.map List.length).getD j 0 = (arrays.getD j []).length := by
  rw [List.getD_eq_getElem?_getD, List.getElem?_map, List.getD_eq_getElem?_getD,
    List.getElem?_eq_getElem hj]
  rfl

theorem forall₂_getD {R : ℕ → ℕ → Prop} {l1 l2 : List ℕ}
    (h : List.Forall₂ R l1 l2) {i : ℕ} (hi : i < l1.length) (d1 d2 : ℕ) :
    R (l1.getD i d1) (l2.getD i d2) := by
  induction h generalizing i with
  | nil => simp at hi
  | cons hab hrest ih =>
    cases i with
    | zero => simpa using hab
    | succ i => simpa using ih (by simpa using hi)

theorem sorted_getD_inj {a : List ℚ} (hs : a.Sorted (· < ·)) {i1 i2 : ℕ}
    (h1 : i1 < a.length) (h2 : i2 < a.length)
    (he : a.getD i1 0 = a.getD i2 0) : i1 = i2 := by
  rw [List.getD_eq_getElem?_getD, List.getElem?_eq_getElem h1,
    List.getD_eq_getElem?_getD, List.getElem?_eq_getElem h2] at he
  simp only [Option.getD_some] at he
  rcases Nat.lt_trichotomy i1 i2 with h | h | h
  · have := hs.rel_get_of_lt (a := ⟨i1, h1⟩) (b := ⟨i2, h2⟩) (Fin.mk_lt_mk.mpr h)
    simp only [List.get_eq_getElem] at this
    exact absurd he (ne_of_lt this)
  · exact h
  · have := hs.rel_get_of_lt (a := ⟨i2, h2⟩) (b := ⟨i1, h1⟩) (Fin.mk_lt_mk.mpr h)
    simp only [List.get_eq_getElem] at this
    exact absurd he.symm (ne_of_lt this)

theorem flatten_map_singleton {α β : Type} (l : List α) (g : α → β) :
    (l.map (fun x => [g x])).flatten = l.map g := by
  induction l with
  | nil => rfl
  | cons a as ih => simp [ih]

/-- C8, confirmed: for strictly increasing non-empty coordinate sequences,
`cartesian_product` returns one row of `D` entries per element of the
Cartesian product — `∏ len(arrays[j])` rows in all — where the row at flat
index `f` is the combination selected by the row-major multi-index of `f`
over the shape `(len(arrays[0]), ..., len(arrays[D-1]))`; no two rows
coincide; and for `D = 1` it is the single sequence as one column. -/
theorem C8_cartesian_product (arrays : List (List ℚ))
    (hne : ∀ l ∈ arrays, l ≠ []) (hsort : ∀ l ∈ arrays, l.Sorted (· < ·)) :
    (cartesian_product arrays).shape =
      [(arrays.map List.length).prod, arrays.length] ∧
    (∀ f, f < (arrays.map List.length).prod →
      (cartesian_product arrays).row f = (List.range arrays.length).map
        (fun j => (arrays.getD j []).getD
          ((unflatten (arrays.map List.length) f).getD j 0) 0)) ∧
    (∀ f g, f < (arrays.map List.length).prod →
      g < (arrays.map List.length).prod →
      (cartesian_product arrays).row f = (cartesian_product arrays).row g →
      f = g) ∧
    (∀ a : List ℚ, cartesian_product [a] = ⟨[a.length, 1], a⟩) := by
  have hrow : ∀ f, f < (arrays.map List.length).prod →
      (cartesian_product arrays).row f = (List.range arrays.length).map
        (fun j => (arrays.getD j []).getD
          ((unflatten (arrays.map List.length) f).getD j 0) 0) := by
    intro f hf
    unfold NDArray.row cartesian_product
    simp only [List.getD_cons_succ, List.getD_cons_zero]
    refine flatten_drop_take _ arrays.length (fun r hr => ?_) (by simpa using hf)
      |>.trans (getD_map_range _ _ hf)
    obtain ⟨f', _, rfl⟩ := List.mem_map.mp hr
    simp
  refine ⟨rfl, hrow, ?_, ?_⟩
  · intro f g hf hg he
    rw [hrow f hf, hrow g hg] at he
    set sh := arrays.map List.length with hsh
    have hlen : ∀ h, h < sh.prod → (unflatten sh h).length = arrays.length := by
      intro h _
      rw [unflatten_length, hsh, List.length_map]
    have hcomp : ∀ j, j < arrays.length →
        (unflatten sh f).getD j 0 = (unflatten sh g).getD j 0 := by
      intro j hj
      have hef := congrArg (fun l => l.getD j (0 : ℚ)) he
      simp only at hef
      rw [getD_map_range _ _ hj, getD_map_range _ _ hj] at hef
      have hbf : (unflatten sh f).getD j 0 < (arrays.getD j []).length := by
        rw [← getD_map_length arrays hj]
        exact forall₂_getD (unflatten_forall₂ hf) (by rw [hlen f hf]; omega) 0 0
      have hbg : (unflatten sh g).getD j 0 < (arrays.getD j []).length := by
        rw [← getD_map_length arrays hj]
        exact forall₂_getD (unflatten_forall₂ hg) (by rw [hlen g hg]; omega) 0 0
      have hmem : arrays.getD j [] ∈ arrays := by
        rw [List.getD_eq_getElem?_getD, List.getElem?_eq_getElem hj]
        simpa using List.getElem_mem _
      exact sorted_getD_inj (hsort _ hmem) hbf hbg hef
    have hidx : unflatten sh f = unflatten sh g := by
      refine List.ext_getElem (by rw [hlen f hf, hlen g hg]) ?_
      intro j hj1 hj2
      have hj : j < arrays.length := by rw [hlen f hf] at hj1; omega
      have := hcomp j hj
      rw [List.getD_eq_getElem?_getD, List.getElem?_eq_getElem hj1,
        List.getD_eq_getElem?_getD, List.getElem?_eq_getElem hj2] at this
      simpa using this
    calc f = flattenIdx sh (unflatten sh f) := (flattenIdx_unflatten hf).symm
    _ = flattenIdx sh (unflatten sh g) := by rw [hidx]
    _ = g := flattenIdx_unflatten hg
  · intro a
    unfold cartesian_product
    refine congrArg₂ NDArray.mk (by simp) ?_
    have h3 : (([a] : List (List ℚ)).map List.length).prod = a.length := by simp
    rw [h3]
    have h1 : ∀ f, (List.range ([a] : List (List ℚ)).length).map
        (fun j => (([a] : List (List ℚ)).getD j []).getD
          ((unflatten ([a].map List.length) f).getD j 0) 0) = [a.getD f 0] := by
      intro f
      have hr1 : List.range 1 = [0] := rfl
      simp [unflatten, hr1]
    rw [List.map_congr_left (fun f _ => h1 f),
      flatten_map_singleton (List.range a.length) (fun f => a.getD f 0)]
    simpa using map_range_getD a 0 id

/-- Witness for C8 on the sorted non-empty sequences `[1, 2]` and
`[3, 4]`. -/
theorem C8_cartesian_product_witness :
    (cartesian_product [[1, 2], [3, 4]]).shape = [4, 2] :=
  (C8_cartesian_product [[1, 2], [3, 4]] (by decide)
    (by with_unfolding_all decide)).1

theorem allocQ_idx_ne_zero (s : Store) (b : List ℚ)
    (h : 0 < s.qbufs.length) : (s.allocQ b).2 ≠ 0 := by
  show s.qbufs.length ≠ 0
  omega

theorem allocQ_getD0 (st : Store) (b : List ℚ) (h : 0 < st.qbufs.length) :
    (st.allocQ b).1.qbufs.getD 0 [] = st.qbufs.getD 0 [] := by
  show (st.qbufs ++ [b]).getD 0 [] = st.qbufs.getD 0 []
  rw [List.getD_eq_getElem?_getD, List.getElem?_append_left h,
    ← List.getD_eq_getElem?_getD]

theorem allocQ_len (st : Store) (b : List ℚ) :
    (st.allocQ b).1.qbufs.length = st.qbufs.length + 1 := by
  show (st.qbufs ++ [b]).length = _
  simp

theorem writeQ_getD0 (st : Store) (i : ℕ) (b : List ℚ) (h : i ≠ 0) :
    (st.writeQ i b).qbufs.getD 0 [] = st.qbufs.getD 0 [] := by
  show (st.qbufs.set i b).getD 0 [] = _
  rw [List.getD_eq_getElem?_getD, List.getElem?_set_ne h,
    ← List.getD_eq_getElem?_getD]

theorem storePres_allocQ {st s : Store} (h0 : 0 < st.qbufs.length)
    (hp : StorePres st s) (b : List ℚ) : StorePres st (s.allocQ b).1 := by
  obtain ⟨h1, h2, h3, h4⟩ := hp
  refine ⟨?_, h2, h3, ?_⟩
  · rw [allocQ_getD0 s b (by omega), h1]
  · rw [allocQ_len]
    omega

theorem storePres_writeQ {st s : Store} (hp : StorePres st s) {i : ℕ}
    (hi : i ≠ 0) (b : List ℚ) : StorePres st (s.writeQ i b) := by
  obtain ⟨h1, h2, h3, h4⟩ := hp
  refine ⟨?_, h2, h3, ?_⟩
  · rw [writeQ_getD0 s i b hi, h1]
  · show st.qbufs.length ≤ (s.qbufs.set i b).length
    rw [List.length_set]
    omega

theorem storePres_foldl {st : Store} (h0 : 0 < st.qbufs.length)
    (l : List (NDArray ℚ)) {s : Store} (hp : StorePres st s) :
    StorePres st (l.foldl (fun s c => (s.allocQ c.data).1) s) := by
  induction l generalizing s with
  | nil => exact hp
  | cons c cs ih =>
    simp only [List.foldl_cons]
    exact ih (storePres_allocQ h0 hp c.data)

/-- C10, confirmed in the store semantics: on every input (returning or
failing), `kmc_kernel_estimator` leaves its argument arrays `timeseries`,
`bins` and `powers` element-wise unchanged.  All intermediates are freshly
allocated and the single in-place update of the source — the
`kernel_ /= np.sum(kernel_)` of line 55 — writes to the kernel output's
buffer, which is allocated during the call and therefore never aliases an
argument buffer. -/
theorem C10_frame (st : Store) (tsShape powShape : List ℕ)
    (kernel : NDArray ℚ → ℚ → NDArray ℚ) (bw : ℚ)
    (h0 : 0 < st.qbufs.length) :
    (kmcTracked st tsShape powShape kernel bw).1.qbufs.getD 0 [] =
      st.qbufs.getD 0 [] ∧
    (kmcTracked st tsShape powShape kernel bw).1.nbufs = st.nbufs ∧
    (kmcTracked st tsShape powShape kernel bw).1.zbufs = st.zbufs := by
  suffices h : StorePres st (kmcTracked st tsShape powShape kernel bw).1 by
    exact ⟨h.1, h.2.1, h.2.2.1⟩
  have base : StorePres st st := ⟨rfl, rfl, rfl, le_refl _⟩
  unfold kmcTracked
  simp only []
  split
  · exact storePres_allocQ h0 base _
  · split
    · exact storePres_allocQ h0 (storePres_allocQ h0 base _) _
    · split
      · exact storePres_allocQ h0 (storePres_allocQ h0
          (storePres_allocQ h0 (storePres_allocQ h0
            (storePres_allocQ h0 base _) _) _) _) _
      · split
        · split
          · apply storePres_writeQ ?pres ?ne
            case pres =>
              exact storePres_allocQ h0 (storePres_allocQ h0 (storePres_allocQ h0
                (storePres_allocQ h0 (storePres_allocQ h0 base _) _) _) _) _
            case ne =>
              apply allocQ_idx_ne_zero
              simp only [allocQ_len]
              omega
          · split
            · apply storePres_writeQ ?pres2 ?ne2
              case pres2 =>
                exact storePres_allocQ h0 (storePres_allocQ h0 (storePres_allocQ h0
                  (storePres_allocQ h0 (storePres_allocQ h0 base _) _) _) _) _
              case ne2 =>
                apply allocQ_idx_ne_zero
                simp only [allocQ_len]
                omega
            · refine storePres_allocQ h0 (storePres_foldl h0 _
                (storePres_writeQ ?pres3 ?ne3 _)) _
              case pres3 =>
                exact storePres_allocQ h0 (storePres_allocQ h0 (storePres_allocQ h0
                  (storePres_allocQ h0 (storePres_allocQ h0 base _) _) _) _) _
              case ne3 =>
                apply allocQ_idx_ne_zero
                simp only [allocQ_len]
                omega
        · apply storePres_writeQ ?pres4 ?ne4
          case pres4 =>
            exact storePres_allocQ h0 (storePres_allocQ h0 (storePres_allocQ h0
              (storePres_allocQ h0 (storePres_allocQ h0 base _) _) _) _) _
          case ne4 =>
            apply allocQ_idx_ne_zero
            simp only [allocQ_len]
            omega

/-- Witness for C10: a concrete store holding `tsA`'s buffer, `bins = [2]`
and one exponent; after the call all three argument buffers are intact. -/
theorem C10_frame_witness :
    (kmcTracked ⟨[[0, 1, 3]], [[2]], [[1]]⟩ [3, 1] [1, 1] kerConst 1).1.qbufs.getD
      0 [] = ([[0, 1, 3]] : List (List ℚ)).getD 0 [] ∧
    (kmcTracked ⟨[[0, 1, 3]], [[2]], [[1]]⟩ [3, 1] [1, 1] kerConst 1).1.nbufs =
      [[2]] ∧
    (kmcTracked ⟨[[0, 1, 3]], [[2]], [[1]]⟩ [3, 1] [1, 1] kerConst 1).1.zbufs =
      [[1]] :=
  C10_frame ⟨[[0, 1, 3]], [[2]], [[1]]⟩ [3, 1] [1, 1] kerConst 1 (by decide)

end KMC
